import Mathlib

/-!
Verification of the LMMS `Oscillator` waveform samplers and wavetable band
selector (`include/Oscillator.h`), over an exact-arithmetic shallow embedding:
the `float` piecewise sample routines are modelled over `ℚ` (their operations
are exact rational arithmetic), while the transcendental parts (`sinf`,
`log2f`, `powf`) are modelled over `ℝ`.

`OscillatorConstants.h`, `lmms_constants.h` and `templates.h` are referenced by
the sources but not part of them; the handful of entities they provide
(`SEMITONES_PER_TABLE`, `WAVE_TABLES_PER_WAVEFORM_COUNT`, `F_2PI`, `fraction`,
`linearInterpolate`) are modelled from the spec, as noted on each definition.
-/

/-- Modelled from the spec: the helper `fraction` (from `templates.h`, not in
the sources) reduces a phase to the unit interval; the spec states the phase
"wraps via modulo" and is "normalized to [0,1)", so `fraction x = x - ⌊x⌋`. -/
def fraction (x : ℚ) : ℚ := x - ⌊x⌋

/-- Oscillator.h: `triangleSample` piecewise formula on the phase fraction. -/
def triangleSample (x : ℚ) : ℚ :=
  let ph := fraction x
  if ph ≤ 1/4 then ph * 4
  else if ph ≤ 3/4 then 2 - ph * 4
  else ph * 4 - 4

/-- Oscillator.h: `sawSample`, `-1.0f + fraction( _sample ) * 2.0f`. -/
def sawSample (x : ℚ) : ℚ := -1 + fraction x * 2

/-- Oscillator.h: `squareSample`, `( fraction( _sample ) > 0.5f ) ? -1.0f : 1.0f`. -/
def squareSample (x : ℚ) : ℚ := if fraction x > 1/2 then -1 else 1

/-- Oscillator.h: `moogSawSample` piecewise formula on the phase fraction. -/
def moogSawSample (x : ℚ) : ℚ :=
  let ph := fraction x
  if ph < 1/2 then -1 + ph * 4 else 1 - 2 * ph

/-- Oscillator.h, `expSample` step 1: the phase fraction is reflected at the
half cycle (`if( ph > 0.5f ) ph = 1.0f - ph`). -/
def expReflect (ph : ℚ) : ℚ := if ph > 1/2 then 1 - ph else ph

/-- Oscillator.h: `expSample`: the reflected phase fraction is fed to the
parabola `-1.0f + 8.0f * ph * ph`. -/
def expSample (x : ℚ) : ℚ :=
  -1 + 8 * expReflect (fraction x) * expReflect (fraction x)

/-- Oscillator.h: `sinSample`, `sinf( _sample * F_2PI )`; `F_2PI` (from
`lmms_constants.h`, not in the sources) is two pi. -/
noncomputable def sinSample (x : ℝ) : ℝ := Real.sin (x * (2 * Real.pi))

/-- The phase fraction of any rational lies in `[0, 1)`. -/
theorem fraction_mem (x : ℚ) : 0 ≤ fraction x ∧ fraction x < 1 := by
  unfold fraction
  constructor
  · have h := Int.floor_le x
    linarith
  · have h := Int.lt_floor_add_one x
    linarith

/-- On `[0, 1)` the phase fraction is the identity. -/
theorem fraction_eq_self {x : ℚ} (h0 : 0 ≤ x) (h1 : x < 1) : fraction x = x := by
  unfold fraction
  have hfloor : ⌊x⌋ = 0 := Int.floor_eq_zero_iff.mpr ⟨h0, h1⟩
  rw [hfloor]
  simp

/-- C1 counterexample: at `x = 1/2` the fractional part is exactly `0.5`,
which the claim places in `[0.5, 1)` with required output `-1`; the code's
strict comparison `fraction x > 0.5` is false there, so `squareSample`
returns `1`, not `-1`. -/
theorem squareSample_half_ne_neg_one :
    fraction (1/2 : ℚ) = 1/2 ∧ squareSample (1/2 : ℚ) = 1 ∧
      squareSample (1/2 : ℚ) ≠ -1 := by
  norm_num [squareSample, fraction]

/-- C1 (amended): for every `x` with fractional part in `[0, 0.5]`,
`squareSample x = 1`, and for every `x` with fractional part in `(0.5, 1)`,
`squareSample x = -1`. -/
theorem squareSample_eq (x : ℚ) :
    (fraction x ≤ 1/2 → squareSample x = 1) ∧
      (1/2 < fraction x → squareSample x = -1) := by
  unfold squareSample
  constructor
  · intro h
    rw [if_neg (by linarith)]
  · intro h
    rw [if_pos h]

/-- C1 witness: the amended claim evaluated at `x = 1/4` and `x = 3/4`. -/
theorem squareSample_eq_witness :
    squareSample (1/4 : ℚ) = 1 ∧ squareSample (3/4 : ℚ) = -1 := by
  constructor
  · exact (squareSample_eq (1/4)).1 (by norm_num [fraction])
  · exact (squareSample_eq (3/4)).2 (by norm_num [fraction])

/-- C5: the triangle wave hits its piecewise breakpoints exactly:
`0 ↦ 0`, `0.25 ↦ 1`, `0.5 ↦ 0`, `0.75 ↦ -1`. -/
theorem triangleSample_breakpoints :
    triangleSample 0 = 0 ∧ triangleSample (1/4) = 1 ∧
      triangleSample (1/2) = 0 ∧ triangleSample (3/4) = -1 := by
  refine ⟨?_, ?_, ?_, ?_⟩ <;> norm_num [triangleSample, fraction]

/-- The half-cycle reflection is symmetric about `1/2` on every input. -/
theorem expReflect_symm (p : ℚ) : expReflect p = expReflect (1 - p) := by
  unfold expReflect
  split_ifs <;> linarith

/-- C10: `expSample` is symmetric about the half cycle: for `p` in `[0, 1]`,
`expSample p = expSample (1 - p)`. -/
theorem expSample_symm (p : ℚ) (h0 : 0 ≤ p) (h1 : p ≤ 1) :
    expSample p = expSample (1 - p) := by
  rcases lt_or_eq_of_le h1 with hlt | heq
  · rcases eq_or_lt_of_le h0 with heq0 | hlt0
    · rw [← heq0]
      norm_num [expSample, fraction, expReflect]
    · have hf1 : fraction p = p := fraction_eq_self h0 hlt
      have hf2 : fraction (1 - p) = 1 - p :=
        fraction_eq_self (by linarith) (by linarith)
      unfold expSample
      rw [hf1, hf2, expReflect_symm p]
  · rw [heq]
    norm_num [expSample, fraction, expReflect]

/-- C10 witness: symmetry evaluated at `p = 1/8`: both `expSample (1/8)` and
`expSample (7/8)` equal `-7/8`. -/
theorem expSample_symm_witness :
    expSample (1/8 : ℚ) = expSample (1 - 1/8) ∧ expSample (1/8 : ℚ) = -7/8 := by
  constructor
  · exact expSample_symm (1/8) (by norm_num) (by norm_num)
  · norm_num [expSample, fraction, expReflect]

/-- C6: `sinSample 0 = 0`, and the quarter-cycle values are exactly `1`, `0`,
`-1` in the real-number model; in general `sinSample p = sin (2 pi p)`. -/
theorem sinSample_spec :
    sinSample 0 = 0 ∧ sinSample (1/4) = 1 ∧ sinSample (1/2) = 0 ∧
      sinSample (3/4) = -1 ∧ ∀ p : ℝ, sinSample p = Real.sin (2 * Real.pi * p) := by
  refine ⟨?_, ?_, ?_, ?_, ?_⟩
  · simp [sinSample]
  · unfold sinSample
    have h : (1/4 : ℝ) * (2 * Real.pi) = Real.pi / 2 := by ring
    rw [h, Real.sin_pi_div_two]
  · unfold sinSample
    have h : (1/2 : ℝ) * (2 * Real.pi) = Real.pi := by ring
    rw [h, Real.sin_pi]
  · unfold sinSample
    have h : (3/4 : ℝ) * (2 * Real.pi) = -(Real.pi / 2) + 2 * Real.pi := by ring
    rw [h, Real.sin_add_two_pi, Real.sin_neg, Real.sin_pi_div_two]
  · intro p
    unfold sinSample
    rw [mul_comm]

/-- C4: on phase fractions in `[0, 1)` every closed-form sampler stays within
`[-1, 1]`. -/
theorem samplers_bounded (p : ℚ) (h0 : 0 ≤ p) (h1 : p < 1) :
    (-1 ≤ triangleSample p ∧ triangleSample p ≤ 1) ∧
    (-1 ≤ sawSample p ∧ sawSample p ≤ 1) ∧
    (-1 ≤ squareSample p ∧ squareSample p ≤ 1) ∧
    (-1 ≤ moogSawSample p ∧ moogSawSample p ≤ 1) ∧
    (-1 ≤ expSample p ∧ expSample p ≤ 1) ∧
    (-1 ≤ sinSample (p : ℝ) ∧ sinSample (p : ℝ) ≤ 1) := by
  have hf : fraction p = p := fraction_eq_self h0 h1
  refine ⟨?_, ?_, ?_, ?_, ?_, ?_⟩
  · unfold triangleSample
    rw [hf]
    dsimp only
    split_ifs <;> constructor <;> linarith
  · unfold sawSample
    rw [hf]
    constructor <;> linarith
  · unfold squareSample
    rw [hf]
    split_ifs <;> constructor <;> linarith
  · unfold moogSawSample
    rw [hf]
    dsimp only
    split_ifs <;> constructor <;> linarith
  · unfold expSample expReflect
    rw [hf]
    split_ifs with h <;> constructor <;> nlinarith
  · exact ⟨Real.neg_one_le_sin _, Real.sin_le_one _⟩

/-- C4 witness: the bounds instantiated at `p = 1/3`. -/
theorem samplers_bounded_witness :
    (-1 ≤ triangleSample (1/3) ∧ triangleSample (1/3) ≤ 1) ∧
    (-1 ≤ sawSample (1/3) ∧ sawSample (1/3) ≤ 1) ∧
    (-1 ≤ squareSample (1/3) ∧ squareSample (1/3) ≤ 1) ∧
    (-1 ≤ moogSawSample (1/3) ∧ moogSawSample (1/3) ≤ 1) ∧
    (-1 ≤ expSample (1/3) ∧ expSample (1/3) ≤ 1) ∧
    (-1 ≤ sinSample ((1/3 : ℚ) : ℝ) ∧ sinSample ((1/3 : ℚ) : ℝ) ≤ 1) :=
  samplers_bounded (1/3) (by norm_num) (by norm_num)

/-- Truncating division (C integer division) by a positive divisor is
monotone in the dividend. -/
theorem tdiv_le_tdiv_of_le {a b S : ℤ} (hS : 0 < S) (h : a ≤ b) :
    a.tdiv S ≤ b.tdiv S := by
  rcases le_or_lt 0 a with ha | ha
  · rw [Int.tdiv_eq_ediv ha hS.le, Int.tdiv_eq_ediv (by omega) hS.le]
    exact Int.ediv_le_ediv hS h
  · rcases le_or_lt 0 b with hb | hb
    · have h1 : a.tdiv S ≤ 0 := by
        have h2 : (-a).tdiv S ≥ 0 := Int.tdiv_nonneg (by omega) hS.le
        have h3 : (-a).tdiv S = -a.tdiv S := Int.neg_tdiv a S
        omega
      exact le_trans h1 (Int.tdiv_nonneg hb hS.le)
    · have h3 : (-a).tdiv S = -a.tdiv S := Int.neg_tdiv a S
      have h4 : (-b).tdiv S = -b.tdiv S := Int.neg_tdiv b S
      have h5 : (-b).tdiv S ≤ (-a).tdiv S := by
        rw [Int.tdiv_eq_ediv (by omega) hS.le, Int.tdiv_eq_ediv (by omega) hS.le]
        exact Int.ediv_le_ediv hS (by omega)
      omega

/-- Oscillator.h, `waveTableBandFromFreq` before the clamp: the local `band`
value `(69 + static_cast<int>(ceil(12.0f * log2f(freq / 440.0f)))) / S`,
where `S` is `OscillatorConstants::SEMITONES_PER_TABLE`.  Modelled from the
spec: `OscillatorConstants.h` is not among the sources, so the semitone
granularity `S` is kept as an explicit positive integer parameter. -/
noncomputable def waveTableBandFromFreqRaw (S : ℤ) (freq : ℝ) : ℤ :=
  (69 + ⌈(12 : ℝ) * Real.logb 2 (freq / 440)⌉).tdiv S

/-- Oscillator.h, `waveTableBandFromFreq`: the raw band clamped into
`[1, N - 1]` via `band <= 1 ? 1 : band >= N-1 ? N-1 : band`, where `N` is
`OscillatorConstants::WAVE_TABLES_PER_WAVEFORM_COUNT` (modelled from the
spec as an explicit integer parameter, see `waveTableBandFromFreqRaw`). -/
noncomputable def waveTableBandFromFreq (S N : ℤ) (freq : ℝ) : ℤ :=
  if waveTableBandFromFreqRaw S freq ≤ 1 then 1
  else if waveTableBandFromFreqRaw S freq ≥ N - 1 then N - 1
  else waveTableBandFromFreqRaw S freq

/-- Oscillator.h, `freqFromWaveTableBand`:
`440.0f * powf(2.0f, (band * S - 69.0f) / 12.0f)`. -/
noncomputable def freqFromWaveTableBand (S : ℤ) (band : ℤ) : ℝ :=
  440 * (2 : ℝ) ^ ((((band * S : ℤ) : ℝ) - 69) / 12)

/-- The band-to-frequency inverse composed with the frequency-to-band map is
the identity on `[1, N - 1]` (exact, in the real-number model). -/
theorem waveTableBandFromFreq_freqFrom_eq (S N b : ℤ) (hS : 0 < S) (hN : 2 ≤ N)
    (hb1 : 1 ≤ b) (hb2 : b ≤ N - 1) :
    waveTableBandFromFreq S N (freqFromWaveTableBand S b) = b := by
  have hdiv : freqFromWaveTableBand S b / 440 =
      (2 : ℝ) ^ ((((b * S : ℤ) : ℝ) - 69) / 12) := by
    unfold freqFromWaveTableBand
    exact mul_div_cancel_left₀ _ (by norm_num)
  have hraw : waveTableBandFromFreqRaw S (freqFromWaveTableBand S b) = b := by
    unfold waveTableBandFromFreqRaw
    rw [hdiv, Real.logb_rpow (by norm_num) (by norm_num)]
    have h12 : (12 : ℝ) * (((((b * S : ℤ) : ℝ)) - 69) / 12) = ((b * S - 69 : ℤ) : ℝ) := by
      push_cast
      ring
    rw [h12, Int.ceil_intCast]
    have h69 : 69 + (b * S - 69) = b * S := by ring
    rw [h69]
    exact Int.mul_tdiv_cancel b (ne_of_gt hS)
  unfold waveTableBandFromFreq
  rw [hraw]
  split_ifs <;> omega

/-- C2: for every band `b` in `[1, N - 1]` (with positive semitone
granularity `S` and at least two bands), the round trip
`waveTableBandFromFreq (freqFromWaveTableBand b)` lands within one band
index of `b`. -/
theorem waveTableBandFromFreq_roundtrip (S N b : ℤ) (hS : 0 < S) (hN : 2 ≤ N)
    (hb1 : 1 ≤ b) (hb2 : b ≤ N - 1) :
    |waveTableBandFromFreq S N (freqFromWaveTableBand S b) - b| ≤ 1 := by
  rw [waveTableBandFromFreq_freqFrom_eq S N b hS hN hb1 hb2]
  simp

/-- C2 witness: the round trip at `S = 1`, `N = 128`, `b = 5`. -/
theorem waveTableBandFromFreq_roundtrip_witness :
    |waveTableBandFromFreq 1 128 (freqFromWaveTableBand 1 5) - 5| ≤ 1 :=
  waveTableBandFromFreq_roundtrip 1 128 5 (by norm_num) (by norm_num)
    (by norm_num) (by norm_num)

/-- C3: for every positive frequency the returned band index is clamped to
`[1, N - 1]`: never `0` or negative, and never above `N - 1`. -/
theorem waveTableBandFromFreq_range (S N : ℤ) (freq : ℝ) (hN : 2 ≤ N)
    (hf : 0 < freq) :
    1 ≤ waveTableBandFromFreq S N freq ∧ waveTableBandFromFreq S N freq ≤ N - 1 := by
  unfold waveTableBandFromFreq
  split_ifs <;> omega

/-- C3 witness: the clamp bounds at `S = 1`, `N = 128`, `freq = 440`. -/
theorem waveTableBandFromFreq_range_witness :
    1 ≤ waveTableBandFromFreq 1 128 440 ∧ waveTableBandFromFreq 1 128 440 ≤ 127 :=
  waveTableBandFromFreq_range 1 128 440 (by norm_num) (by norm_num)

/-- C9: the band selector is monotone non-decreasing on positive
frequencies: a higher fundamental never selects a lower band. -/
theorem waveTableBandFromFreq_mono (S N : ℤ) (f1 f2 : ℝ) (hS : 0 < S)
    (hN : 2 ≤ N) (hf1 : 0 < f1) (h12 : f1 ≤ f2) :
    waveTableBandFromFreq S N f1 ≤ waveTableBandFromFreq S N f2 := by
  have hraw : waveTableBandFromFreqRaw S f1 ≤ waveTableBandFromFreqRaw S f2 := by
    unfold waveTableBandFromFreqRaw
    apply tdiv_le_tdiv_of_le hS
    have hlog : Real.logb 2 (f1 / 440) ≤ Real.logb 2 (f2 / 440) :=
      Real.logb_le_logb_of_le (by norm_num) (by positivity) (by linarith)
    have hceil : ⌈(12 : ℝ) * Real.logb 2 (f1 / 440)⌉ ≤
        ⌈(12 : ℝ) * Real.logb 2 (f2 / 440)⌉ :=
      Int.ceil_le_ceil (by linarith)
    omega
  unfold waveTableBandFromFreq
  split_ifs <;> omega

/-- C9 witness: monotonicity at `S = 1`, `N = 128`, `f1 = 220`, `f2 = 440`. -/
theorem waveTableBandFromFreq_mono_witness :
    waveTableBandFromFreq 1 128 220 ≤ waveTableBandFromFreq 1 128 440 :=
  waveTableBandFromFreq_mono 1 128 220 440 (by norm_num) (by norm_num)
    (by norm_num) (by norm_num)

/-- Negating the dividend negates the truncating remainder. -/
theorem neg_tmod_eq (a b : ℤ) : (-a).tmod b = -(a.tmod b) := by
  rw [Int.tmod_def, Int.tmod_def, Int.neg_tdiv]
  ring

/-- For a positive modulus the truncating remainder lies in `(-b, b)`. -/
theorem tmod_bounds (a : ℤ) {b : ℤ} (hb : 0 < b) :
    -b < a.tmod b ∧ a.tmod b < b := by
  constructor
  · have h := Int.tmod_lt_of_pos (-a) hb
    rw [neg_tmod_eq] at h
    omega
  · exact Int.tmod_lt_of_pos a hb

/-- include/Oscillator.h line 198: `static const int WAVETABLE_LENGTH = 1024`. -/
def WAVETABLE_LENGTH : ℤ := 1024

/-- The C cast `static_cast<f_cnt_t>` of a floating value truncates toward
zero. -/
def c_trunc (x : ℚ) : ℤ := if x < 0 then ⌈x⌉ else ⌊x⌋

/-- Modelled from the spec: `linearInterpolate` (from `interpolation.h`, not
in the sources) "linearly interpolate between adjacent table samples":
`v0 + frac * (v1 - v0)`. -/
def linearInterpolate (v0 v1 frac : ℚ) : ℚ := v0 + frac * (v1 - v0)

/-- Oscillator.h, `wtSample` first index: `f1 = static_cast<f_cnt_t>(frame) %
WAVETABLE_LENGTH` (C `%` truncates like the division), then
`if (f1 < 0) f1 += WAVETABLE_LENGTH`. -/
def wtF1 (x : ℚ) : ℤ :=
  let f1 := (c_trunc (x * ((WAVETABLE_LENGTH : ℤ) : ℚ))).tmod WAVETABLE_LENGTH
  if f1 < 0 then f1 + WAVETABLE_LENGTH else f1

/-- Oscillator.h, `wtSample` second index:
`f2 = f1 < WAVETABLE_LENGTH - 1 ? f1 + 1 : 0`. -/
def wtF2 (x : ℚ) : ℤ :=
  if wtF1 x < WAVETABLE_LENGTH - 1 then wtF1 x + 1 else 0

/-- Oscillator.h, `wtSample`: linear interpolation between the two adjacent
table slots of the band selected from the oscillator's current frequency,
weighted by `fraction(frame)`.  The wavetable is modelled as a function from
band and slot indices to the stored sample. -/
noncomputable def wtSample (S N : ℤ) (table : ℤ → ℤ → ℚ) (freq : ℝ) (x : ℚ) : ℚ :=
  linearInterpolate (table (waveTableBandFromFreq S N freq) (wtF1 x))
    (table (waveTableBandFromFreq S N freq) (wtF2 x))
    (fraction (x * ((WAVETABLE_LENGTH : ℤ) : ℚ)))

/-- The first table index lies in `[0, WAVETABLE_LENGTH - 1]` for every
input, negative phases included. -/
theorem wtF1_mem (x : ℚ) : 0 ≤ wtF1 x ∧ wtF1 x ≤ WAVETABLE_LENGTH - 1 := by
  unfold wtF1
  have h := tmod_bounds (c_trunc (x * ((WAVETABLE_LENGTH : ℤ) : ℚ)))
    (show (0 : ℤ) < WAVETABLE_LENGTH by decide)
  have hL : WAVETABLE_LENGTH = 1024 := rfl
  dsimp only
  split_ifs <;> omega

/-- C7 comparison definition, following the claim's words: the second index
is `f1 + 1`, wrapped to `0` exactly when `f1` is the last table slot
`WAVETABLE_LENGTH - 1`. -/
def wtF2Described (x : ℚ) : ℤ :=
  if wtF1 x = WAVETABLE_LENGTH - 1 then 0 else wtF1 x + 1

/-- C7: `wtSample` interpolates the table entries at `f1` and at `f1 + 1`
(wrapped to `0` when `f1` is the last slot), with weight the fractional part
of `x * WAVETABLE_LENGTH`, in the band selected from the current frequency. -/
theorem wtSample_eq_described (S N : ℤ) (table : ℤ → ℤ → ℚ) (freq : ℝ) (x : ℚ) :
    wtSample S N table freq x =
      (1 - fraction (x * ((WAVETABLE_LENGTH : ℤ) : ℚ))) *
          table (waveTableBandFromFreq S N freq) (wtF1 x) +
        fraction (x * ((WAVETABLE_LENGTH : ℤ) : ℚ)) *
          table (waveTableBandFromFreq S N freq) (wtF2Described x) := by
  have hmem := wtF1_mem x
  have hf2 : wtF2 x = wtF2Described x := by
    unfold wtF2 wtF2Described
    split_ifs <;> omega
  unfold wtSample linearInterpolate
  rw [hf2]
  ring

/-- C8: for every input phase, negative values included, both table indices
lie in `[0, WAVETABLE_LENGTH - 1]` and the band index lies in `[1, N - 1]`,
so every table access of `wtSample` is in bounds. -/
theorem wtSample_access_in_bounds (S N : ℤ) (freq : ℝ) (x : ℚ) (hN : 2 ≤ N) :
    (0 ≤ wtF1 x ∧ wtF1 x ≤ WAVETABLE_LENGTH - 1) ∧
    (0 ≤ wtF2 x ∧ wtF2 x ≤ WAVETABLE_LENGTH - 1) ∧
    (1 ≤ waveTableBandFromFreq S N freq ∧ waveTableBandFromFreq S N freq ≤ N - 1) := by
  have h1 := wtF1_mem x
  refine ⟨h1, ?_, ?_⟩
  · have hL : WAVETABLE_LENGTH = 1024 := rfl
    unfold wtF2
    split_ifs <;> omega
  · unfold waveTableBandFromFreq
    split_ifs <;> omega

/-- C8 witness: the bounds instantiated at `S = 1`, `N = 128`, `freq = 440`,
and the negative phase `x = -3/2`. -/
theorem wtSample_access_in_bounds_witness :
    (0 ≤ wtF1 (-3/2) ∧ wtF1 (-3/2) ≤ WAVETABLE_LENGTH - 1) ∧
    (0 ≤ wtF2 (-3/2) ∧ wtF2 (-3/2) ≤ WAVETABLE_LENGTH - 1) ∧
    (1 ≤ waveTableBandFromFreq 1 128 440 ∧ waveTableBandFromFreq 1 128 440 ≤ 127) :=
  wtSample_access_in_bounds 1 128 440 (-3/2) (by norm_num)
